import Mathlib

/-!
Verification of the article-collection lifecycle of `summarize.py`:
merge/dedupe by `article_id`, FIFO trim, removal reporting, date
resolution, the listing-loop cap, and round-trip persistence.
-/

namespace HnSummarizer

/-- Modelled from the spec: the `Article` record (spec data model). The
`Article` class lives in `article.py`, which is not among the source files;
its attribute list is taken from the specification's data model. -/
structure Article where
  rank : Nat
  title : String
  article_link : String
  comment_link : String
  article_id : String
  score : Int
  user : String
  datestring : String
  generated_article_summary : String
  generated_comment_summary : String
deriving DecidableEq, Repr

/-- `remove_article_by_id` from `summarize.py` (lines 102-129): scan the
collection in order; delete the first record whose `article_id` matches and
return `True`; if none matches, return `False` with the collection intact.
The Python function mutates the list and returns the Bool; here the pair
(returned Bool, resulting list) makes the state passing explicit. -/
def remove_article_by_id : List Article → String → Bool × List Article
  | [], _ => (false, [])
  | a :: rest, i =>
    if a.article_id = i then (true, rest)
    else
      let p := remove_article_by_id rest i
      (p.1, a :: p.2)

/-- One iteration of the module-level merge loop (`summarize.py` lines
206-208): `remove_article_by_id(articles, article.article_id)` followed by
`articles.append(article)`. -/
def mergeStep (collection : List Article) (r : Article) : List Article :=
  (remove_article_by_id collection r.article_id).2 ++ [r]

/-- The module-level merge loop (`summarize.py` lines 204-208): for each
newly fetched record in order, remove any existing record with the same id,
then append the new record. -/
def merge (collection : List Article) (new_records : List Article) : List Article :=
  new_records.foldl mergeStep collection

/-- `trim_article_collection` from `summarize.py` (lines 131-146):
`while len(articles) > max_size: articles.pop(0)`. -/
def trim_article_collection : List Article → Nat → List Article
  | [], _ => []
  | a :: rest, max_size =>
    if (a :: rest).length > max_size then trim_article_collection rest max_size
    else a :: rest

/-- A calendar date, standing for the wall clock read by `datetime.now()`. -/
structure Date where
  year : Nat
  month : Nat
  day : Nat
deriving DecidableEq, Repr

def isLeapYear (y : Nat) : Bool :=
  (y % 4 == 0 && y % 100 != 0) || y % 400 == 0

def daysInMonth (y m : Nat) : Nat :=
  if m = 2 then (if isLeapYear y then 29 else 28)
  else if m = 4 ∨ m = 6 ∨ m = 9 ∨ m = 11 then 30
  else 31

/-- `datetime.now() - timedelta(1)`: the previous calendar day. -/
def prevDay (d : Date) : Date :=
  if d.day > 1 then ⟨d.year, d.month, d.day - 1⟩
  else if d.month > 1 then ⟨d.year, d.month - 1, daysInMonth d.year (d.month - 1)⟩
  else ⟨d.year - 1, 12, 31⟩

def padZero (width n : Nat) : String :=
  let s := toString n
  String.mk (List.replicate (width - s.length) '0') ++ s

/-- `strftime("%Y-%m-%d")`. -/
def formatDate (d : Date) : String :=
  padZero 4 d.year ++ "-" ++ padZero 2 d.month ++ "-" ++ padZero 2 d.day

/-- `get_date` from `summarize.py` (lines 86-100). The settings entry
`override_date` is `none` when the key is absent; the Python test
`"override_date" in settings and settings["override_date"] and
settings["override_date"] != ""` holds exactly when the key is present with
a non-empty string. Otherwise yesterday's date is formatted `YYYY-MM-DD`. -/
def get_date (override_date : Option String) (now : Date) : String :=
  match override_date with
  | some s => if s ≠ "" then s else formatDate (prevDay now)
  | none => formatDate (prevDay now)

/-- One listing row of the fetched page, holding the strings extracted from
the HTML in `return_articles` (`summarize.py` lines 55-63). -/
structure Row where
  rank : String
  title : String
  article_link : String
  article_id : String
  score : String
  user : String
  datestring : String
deriving DecidableEq, Repr

/-- The loop body of `return_articles` (`summarize.py` lines 53-82): build an
Article from the row, append it, increment the counter, and break once
`article_count >= max_articles`. `mk` stands for the external `Article`
constructor, which does the enrichment. -/
def return_articles_go (mk : Row → Article) (max_articles : Nat) :
    List Row → Nat → List Article → List Article
  | [], _, acc => acc
  | row :: rest, article_count, acc =>
    let acc2 := acc ++ [mk row]
    let count2 := article_count + 1
    if count2 ≥ max_articles then acc2
    else return_articles_go mk max_articles rest count2 acc2

/-- `return_articles` from `summarize.py` (lines 31-84), with the fetched
rows and the Article constructor abstracted: counter starts at 0, result
collection starts empty. -/
def return_articles (mk : Row → Article) (rows : List Row) (max_articles : Nat) :
    List Article :=
  return_articles_go mk max_articles rows 0 []

/-- A serialized field of an article, as pickle stores it. -/
inductive Field where
  | str : String → Field
  | int : Int → Field
  | nat : Nat → Field
deriving DecidableEq, Repr

/-- Modelled from the spec: `pickle.dump` of the collection (`summarize.py`
lines 214-215). Pickle itself is a library; the spec requires the format to
round-trip every Article field losslessly and preserve order, so each
article is serialized to the tuple of its fields, in collection order. -/
def pickle_dump (collection : List Article) : List (List Field) :=
  collection.map fun a =>
    [.nat a.rank, .str a.title, .str a.article_link, .str a.comment_link,
     .str a.article_id, .int a.score, .str a.user, .str a.datestring,
     .str a.generated_article_summary, .str a.generated_comment_summary]

/-- Decode one serialized article; fails on a malformed record. -/
def decodeArticle : List Field → Option Article
  | [.nat rank, .str title, .str article_link, .str comment_link,
     .str article_id, .int score, .str user, .str datestring,
     .str gas, .str gcs] =>
    some ⟨rank, title, article_link, comment_link, article_id, score,
          user, datestring, gas, gcs⟩
  | _ => none

/-- Modelled from the spec: `pickle.load` (`summarize.py` lines 200-201),
the inverse of `pickle_dump`; fails if any record is malformed. -/
def pickle_load : List (List Field) → Option (List Article)
  | [] => some []
  | f :: rest =>
    match decodeArticle f, pickle_load rest with
    | some a, some c => some (a :: c)
    | _, _ => none

/-- The `article_id` column of a collection. -/
def idsOf (collection : List Article) : List String :=
  collection.map Article.article_id

/-- The collection invariant: `article_id` values are pairwise distinct. -/
abbrev uniqueIds (collection : List Article) : Prop :=
  (idsOf collection).Nodup

/-- The predicate `article_id == x`, the dedupe comparison. -/
def byId (x : String) (a : Article) : Bool := a.article_id == x

/-- The records of the batch that survive the merge: the last occurrence of
each `article_id`, in order of last occurrence. -/
def dedupLast : List Article → List Article
  | [] => []
  | r :: rest =>
    if r.article_id ∈ idsOf rest then dedupLast rest else r :: dedupLast rest

/-! Example data used by witnesses and counterexamples. -/

/-- A sample article with the given id. -/
def exArticle (i : String) : Article :=
  ⟨1, "t", "al", "cl", i, 5, "u", "2024-01-01T00:00:00", "", ""⟩

/-- A sample article with the given id and score, for content-overwrite
examples. -/
def exArticleScore (i : String) (s : Int) : Article :=
  ⟨1, "t", "al", "cl", i, s, "u", "2024-01-01T00:00:00", "", ""⟩

/-- A sample listing row. -/
def exRow : Row :=
  ⟨"1", "t", "al", "40000000", "5 points", "u", "2024-01-01T00:00:00"⟩

/-- A sample Article constructor for the listing loop. -/
def exMk : Row → Article := fun _ => exArticle "40000000"

/-! ### Trim -/

theorem trim_eq_drop (c : List Article) (m : Nat) :
    trim_article_collection c m = c.drop (c.length - m) := by
  induction c with
  | nil => simp [trim_article_collection]
  | cons a rest ih =>
    simp only [trim_article_collection, List.length_cons]
    split
    · next h =>
      rw [ih]
      have h2 : rest.length + 1 - m = (rest.length - m) + 1 := by omega
      rw [h2, List.drop_succ_cons]
    · next h =>
      have h2 : rest.length + 1 - m = 0 := by omega
      rw [h2, List.drop_zero]

/-- C2: after `trim(C, max_size)` the collection is the suffix of the
`max_size` most recent records in original order (`drop (len - max_size)`),
so its length is at most `max_size`; `max_size = 0` empties it, and a
collection already within the limit is unchanged. -/
theorem trim_invariant (c : List Article) (m : Nat) :
    trim_article_collection c m = c.drop (c.length - m) ∧
    (trim_article_collection c m).length ≤ m ∧
    (m = 0 → trim_article_collection c m = []) ∧
    (c.length ≤ m → trim_article_collection c m = c) := by
  refine ⟨trim_eq_drop c m, ?_, ?_, ?_⟩
  · rw [trim_eq_drop, List.length_drop]; omega
  · intro h; subst h; rw [trim_eq_drop]; simp
  · intro h
    rw [trim_eq_drop]
    have h2 : c.length - m = 0 := by omega
    rw [h2, List.drop_zero]

/-- Witness for C2 on the spec's scenario: ids 1,2,3 trimmed to 2 keep the
last two; trimming to 0 empties. -/
theorem trim_invariant_witness :
    trim_article_collection [exArticle "1", exArticle "2", exArticle "3"] 2 =
      List.drop 1 [exArticle "1", exArticle "2", exArticle "3"] ∧
    trim_article_collection [exArticle "1"] 0 = [] :=
  ⟨(trim_invariant [exArticle "1", exArticle "2", exArticle "3"] 2).1,
   (trim_invariant [exArticle "1"] 0).2.2.1 rfl⟩

/-! ### Date resolution -/

/-- C6: a present, non-empty `override_date` is returned unchanged whatever
the clock reads; an absent or empty override falls back to yesterday's date
formatted `YYYY-MM-DD`. -/
theorem date_resolution (s : String) (now : Date) (hs : s ≠ "") :
    get_date (some s) now = s ∧
    get_date none now = formatDate (prevDay now) ∧
    get_date (some "") now = formatDate (prevDay now) := by
  refine ⟨?_, rfl, ?_⟩
  · simp [get_date, hs]
  · simp [get_date]

/-- Witness for C6 at `override_date = "2024-01-15"`. -/
theorem date_resolution_witness :
    get_date (some "2024-01-15") ⟨2024, 3, 1⟩ = "2024-01-15" :=
  (date_resolution "2024-01-15" ⟨2024, 3, 1⟩ (by decide)).1

/-! ### Round-trip persistence -/

/-- C9: loading the serialized state of a collection restores it
field-for-field, in order. -/
theorem round_trip_persistence (c : List Article) :
    pickle_load (pickle_dump c) = some c := by
  induction c with
  | nil => rfl
  | cons a rest ih =>
    simp only [pickle_dump, List.map_cons] at *
    simp only [pickle_load, decodeArticle, ih]

/-! ### Removal -/

theorem remove_fst_iff (c : List Article) (x : String) :
    (remove_article_by_id c x).1 = true ↔ ∃ a ∈ c, a.article_id = x := by
  induction c with
  | nil => simp [remove_article_by_id]
  | cons a rest ih =>
    by_cases h : a.article_id = x
    · simp [remove_article_by_id, h]
    · simp only [remove_article_by_id, if_neg h]
      simp only [List.mem_cons]
      constructor
      · intro hp
        obtain ⟨b, hb, hbx⟩ := ih.mp hp
        exact ⟨b, Or.inr hb, hbx⟩
      · rintro ⟨b, hb | hb, hbx⟩
        · exact absurd (hb ▸ hbx) h
        · exact ih.mpr ⟨b, hb, hbx⟩

theorem remove_not_found (c : List Article) (x : String)
    (h : ∀ a ∈ c, a.article_id ≠ x) :
    remove_article_by_id c x = (false, c) := by
  induction c with
  | nil => rfl
  | cons a rest ih =>
    have ha : a.article_id ≠ x := h a (by simp)
    have hr := ih fun b hb => h b (List.mem_cons_of_mem a hb)
    simp [remove_article_by_id, ha, hr]

theorem remove_found (p : List Article) (a : Article) (s : List Article)
    (x : String) (hax : a.article_id = x) (hp : ∀ b ∈ p, b.article_id ≠ x) :
    remove_article_by_id (p ++ a :: s) x = (true, p ++ s) := by
  induction p with
  | nil => simp [remove_article_by_id, hax]
  | cons b p2 ih =>
    have hb : b.article_id ≠ x := hp b (by simp)
    have h2 := ih fun d hd => hp d (List.mem_cons_of_mem b hd)
    simp [remove_article_by_id, hb, h2]

/-- C7: `remove_article_by_id` returns `True` exactly when some record
carries the id; on a miss it returns `False` with the collection intact; on
a hit it deletes exactly the first matching record, leaving the others in
order. -/
theorem remove_reporting (c : List Article) (x : String) :
    ((remove_article_by_id c x).1 = true ↔ ∃ a ∈ c, a.article_id = x) ∧
    ((∀ a ∈ c, a.article_id ≠ x) → remove_article_by_id c x = (false, c)) ∧
    (∀ p a s, c = p ++ a :: s → a.article_id = x → (∀ b ∈ p, b.article_id ≠ x) →
      remove_article_by_id c x = (true, p ++ s)) := by
  refine ⟨remove_fst_iff c x, remove_not_found c x, ?_⟩
  intro p a s hc hax hp
  rw [hc]
  exact remove_found p a s x hax hp

/-- Witness for C7: removing id 1 from a two-article collection removes
exactly the first record. -/
theorem remove_reporting_witness :
    remove_article_by_id [exArticle "1", exArticle "2"] "1" =
      (true, [exArticle "2"]) :=
  (remove_reporting [exArticle "1", exArticle "2"] "1").2.2
    [] (exArticle "1") [exArticle "2"] rfl rfl (by simp)

/-! ### Listing loop cap -/

theorem return_articles_go_eq (mk : Row → Article) (m : Nat) (rows : List Row) :
    ∀ (count : Nat) (acc : List Article),
      return_articles_go mk m rows count acc =
        acc ++ (rows.take (max (m - count) 1)).map mk := by
  induction rows with
  | nil => intro count acc; simp [return_articles_go]
  | cons row rest ih =>
    intro count acc
    simp only [return_articles_go]
    split
    · next h =>
      have h1 : max (m - count) 1 = 1 := by omega
      rw [h1]
      simp
    · next h =>
      rw [ih]
      have h2 : max (m - count) 1 = (max (m - (count + 1)) 1) + 1 := by omega
      rw [h2, List.take_succ_cons]
      simp

/-- C8 (amended): the listing loop returns the page's rows in document
order as a prefix of length `max max_articles 1`; in particular for
`max_articles ≥ 1` it returns at most `max_articles` entries, but for
`max_articles = 0` a non-empty page still yields one entry, because the
counter is checked only after an append. -/
theorem listing_cap (mk : Row → Article) (rows : List Row) (m : Nat) :
    return_articles mk rows m = (rows.take (max m 1)).map mk ∧
    (1 ≤ m → (return_articles mk rows m).length ≤ m) := by
  have h := return_articles_go_eq mk m rows 0 []
  simp only [Nat.sub_zero, List.nil_append] at h
  refine ⟨h, ?_⟩
  intro hm
  rw [return_articles, h, List.length_map, List.length_take]
  omega

/-- Witness for C8 (amended) with `max_articles = 1` on a two-row page. -/
theorem listing_cap_witness :
    (return_articles exMk [exRow, exRow] 1).length ≤ 1 :=
  (listing_cap exMk [exRow, exRow] 1).2 (by decide)

/-- Counterexample to C8 as stated: with `max_articles = 0` and a one-row
page, `return_articles` returns one entry, not an empty sequence of at most
zero entries. -/
theorem listing_cap_cex :
    return_articles exMk [exRow] 0 ≠ [] ∧
    ¬ (return_articles exMk [exRow] 0).length ≤ 0 := by
  constructor <;> decide

/-! ### Ids and uniqueness -/

theorem idsOf_nil : idsOf [] = [] := rfl

theorem idsOf_cons (a : Article) (l : List Article) :
    idsOf (a :: l) = a.article_id :: idsOf l := rfl

theorem idsOf_append (l₁ l₂ : List Article) :
    idsOf (l₁ ++ l₂) = idsOf l₁ ++ idsOf l₂ :=
  List.map_append _ _ _

theorem mem_idsOf (x : String) (l : List Article) :
    x ∈ idsOf l ↔ ∃ a ∈ l, a.article_id = x := by
  simp [idsOf, List.mem_map, eq_comm]

theorem uniqueIds_cons (a : Article) (rest : List Article) :
    uniqueIds (a :: rest) ↔
      (∀ b ∈ rest, b.article_id ≠ a.article_id) ∧ uniqueIds rest := by
  simp only [uniqueIds, idsOf_cons, List.nodup_cons, mem_idsOf]
  constructor
  · rintro ⟨h1, h2⟩
    exact ⟨fun b hb he => h1 ⟨b, hb, he⟩, h2⟩
  · rintro ⟨h1, h2⟩
    exact ⟨fun ⟨b, hb, he⟩ => h1 b hb he, h2⟩

theorem uniqueIds_filter (c : List Article) (p : Article → Bool)
    (hc : uniqueIds c) : uniqueIds (c.filter p) := by
  have hsub : List.Sublist (idsOf (c.filter p)) (idsOf c) :=
    List.Sublist.map Article.article_id (List.filter_sublist c)
  exact hc.sublist hsub

/-! ### Removal under uniqueness -/

theorem remove_snd_eq_of_unique (c : List Article) (x : String)
    (hc : uniqueIds c) :
    (remove_article_by_id c x).2 = c.filter fun a => decide (a.article_id ≠ x) := by
  induction c with
  | nil => rfl
  | cons a rest ih =>
    obtain ⟨hna, hrest⟩ := (uniqueIds_cons a rest).mp hc
    by_cases h : a.article_id = x
    · simp only [remove_article_by_id, if_pos h]
      rw [List.filter_cons_of_neg (by simp [h])]
      symm
      apply List.filter_eq_self.mpr
      intro b hb
      have : b.article_id ≠ x := fun he => hna b hb (he.trans h.symm)
      simpa using this
    · simp only [remove_article_by_id, if_neg h]
      rw [ih hrest, List.filter_cons_of_pos (by simpa using h)]

/-! ### The merge step under uniqueness -/

theorem mergeStep_eq (c : List Article) (r : Article) (hc : uniqueIds c) :
    mergeStep c r =
      (c.filter fun a => decide (a.article_id ≠ r.article_id)) ++ [r] := by
  rw [mergeStep, remove_snd_eq_of_unique c r.article_id hc]

theorem uniqueIds_mergeStep (c : List Article) (r : Article)
    (hc : uniqueIds c) : uniqueIds (mergeStep c r) := by
  rw [mergeStep_eq c r hc]
  unfold uniqueIds
  rw [idsOf_append]
  apply List.Nodup.append
  · exact uniqueIds_filter c _ hc
  · simp [idsOf]
  · intro y hy1 hy2
    have hy : y = r.article_id := by simpa [idsOf] using hy2
    obtain ⟨b, hb, hby⟩ := (mem_idsOf y _).mp hy1
    have hbp := (List.mem_filter.mp hb).2
    simp only [decide_eq_true_eq] at hbp
    exact hbp (hby.trans hy)

/-! ### Surviving batch records -/

theorem dedupLast_sublist (r : List Article) : List.Sublist (dedupLast r) r := by
  induction r with
  | nil => simp [dedupLast]
  | cons a rest ih =>
    rw [dedupLast]
    split
    · exact ih.cons a
    · exact ih.cons₂ a

theorem mem_idsOf_dedupLast (r : List Article) (x : String) :
    x ∈ idsOf (dedupLast r) ↔ x ∈ idsOf r := by
  induction r with
  | nil => simp [dedupLast]
  | cons a rest ih =>
    rw [dedupLast]
    split
    · next h =>
      rw [ih, idsOf_cons, List.mem_cons]
      constructor
      · exact Or.inr
      · rintro (rfl | h2)
        · exact h
        · exact h2
    · next h =>
      rw [idsOf_cons, idsOf_cons, List.mem_cons, List.mem_cons, ih]

theorem nodup_idsOf_dedupLast (r : List Article) :
    (idsOf (dedupLast r)).Nodup := by
  induction r with
  | nil => simp [dedupLast, idsOf]
  | cons a rest ih =>
    rw [dedupLast]
    split
    · exact ih
    · next h =>
      rw [idsOf_cons, List.nodup_cons]
      exact ⟨fun hm => h ((mem_idsOf_dedupLast rest a.article_id).mp hm), ih⟩

/-! ### The merge loop -/

theorem merge_nil (c : List Article) : merge c [] = c := rfl

theorem merge_cons (c : List Article) (a : Article) (rest : List Article) :
    merge c (a :: rest) = merge (mergeStep c a) rest := rfl

theorem merge_eq (r : List Article) :
    ∀ c : List Article, uniqueIds c →
      merge c r =
        (c.filter fun a => decide (a.article_id ∉ idsOf r)) ++ dedupLast r := by
  induction r with
  | nil =>
    intro c _
    simp [merge_nil, dedupLast, idsOf_nil]
  | cons a rest ih =>
    intro c hc
    rw [merge_cons, ih (mergeStep c a) (uniqueIds_mergeStep c a hc),
        mergeStep_eq c a hc, List.filter_append, List.filter_filter]
    have hpred : ∀ b : Article,
        (decide (b.article_id ∉ idsOf rest) && decide (b.article_id ≠ a.article_id)) =
          decide (b.article_id ∉ idsOf (a :: rest)) := by
      intro b
      rw [← Bool.decide_and, decide_eq_decide, idsOf_cons, List.mem_cons]
      constructor
      · rintro ⟨h1, h2⟩ (h3 | h3)
        · exact h2 h3
        · exact h1 h3
      · intro h
        exact ⟨fun h1 => h (Or.inr h1), fun h2 => h (Or.inl h2)⟩
    rw [List.filter_congr fun b _ => hpred b]
    by_cases h : a.article_id ∈ idsOf rest
    · rw [dedupLast, if_pos h, List.filter_cons_of_neg (by simpa using h),
          List.filter_nil, List.append_nil]
    · rw [dedupLast, if_neg h, List.filter_cons_of_pos (by simpa using h),
          List.filter_nil, List.append_assoc, List.singleton_append]

/-! ### Which version of a repeated id survives -/

theorem getLast?_cons_of_ne_nil {α : Type} (a : α) (l : List α) (h : l ≠ []) :
    (a :: l).getLast? = l.getLast? := by
  cases l with
  | nil => exact absurd rfl h
  | cons b t => exact List.getLast?_cons_cons

theorem filter_byId_eq_nil_iff (l : List Article) (x : String) :
    l.filter (byId x) = [] ↔ x ∉ idsOf l := by
  rw [List.filter_eq_nil_iff, mem_idsOf]
  simp [byId]

theorem dedupLast_filter_byId (r : List Article) (x : String) :
    (dedupLast r).filter (byId x) = ((r.filter (byId x)).getLast?).toList := by
  induction r with
  | nil => rfl
  | cons a rest ih =>
    rw [dedupLast]
    split
    · next h =>
      rw [ih]
      by_cases hx : a.article_id = x
      · rw [List.filter_cons_of_pos (by simp [byId, hx])]
        have hne : rest.filter (byId x) ≠ [] := by
          rw [Ne, filter_byId_eq_nil_iff]
          exact fun hn => hn (hx ▸ h)
        rw [getLast?_cons_of_ne_nil _ _ hne]
      · rw [List.filter_cons_of_neg (by simp [byId, hx])]
    · next h =>
      by_cases hx : a.article_id = x
      · have h1 : rest.filter (byId x) = [] :=
          (filter_byId_eq_nil_iff rest x).mpr (fun hm => h (hx ▸ hm))
        have h2 : (dedupLast rest).filter (byId x) = [] := by
          rw [ih, h1]
          rfl
        rw [List.filter_cons_of_pos (by simp [byId, hx]),
            List.filter_cons_of_pos (by simp [byId, hx]), h2, h1]
        rfl
      · rw [List.filter_cons_of_neg (by simp [byId, hx]),
            List.filter_cons_of_neg (by simp [byId, hx])]
        exact ih

/-- Shared characterization: when id `x` occurs in the batch, the merged
collection holds exactly one record with id `x`, namely the batch's last
occurrence. -/
theorem merge_filter_byId (c r : List Article) (x : String) (hc : uniqueIds c)
    (hxr : x ∈ idsOf r) :
    (merge c r).filter (byId x) = ((r.filter (byId x)).getLast?).toList ∧
    ((merge c r).filter (byId x)).length = 1 := by
  have hfil : (c.filter fun a => decide (a.article_id ∉ idsOf r)).filter (byId x)
      = [] := by
    rw [List.filter_eq_nil_iff]
    intro b hb hbx
    have hbp := (List.mem_filter.mp hb).2
    simp only [decide_eq_true_eq] at hbp
    have : b.article_id = x := by simpa [byId] using hbx
    exact hbp (this ▸ hxr)
  have hmain : (merge c r).filter (byId x) =
      ((r.filter (byId x)).getLast?).toList := by
    rw [merge_eq r c hc, List.filter_append, hfil, List.nil_append,
        dedupLast_filter_byId]
  refine ⟨hmain, ?_⟩
  rw [hmain]
  have hne : r.filter (byId x) ≠ [] := by
    rw [Ne, filter_byId_eq_nil_iff]
    exact fun hn => hn hxr
  obtain ⟨v, hv⟩ := Option.isSome_iff_exists.mp (List.getLast?_isSome.mpr hne)
  rw [hv]
  rfl

/-- C1: after the merge, an id present both in the old collection and in
the batch is carried by exactly one record, whose contents are the batch's
(last) version. -/
theorem merge_dedupe_correct (c r : List Article) (x : String)
    (hc : uniqueIds c) (_hxc : x ∈ idsOf c) (hxr : x ∈ idsOf r) :
    ((merge c r).filter (byId x)).length = 1 ∧
    (merge c r).filter (byId x) = ((r.filter (byId x)).getLast?).toList :=
  ⟨(merge_filter_byId c r x hc hxr).2, (merge_filter_byId c r x hc hxr).1⟩

/-- Witness for C1 on the spec's scenario: id 1 with score 5 refetched with
score 9 leaves exactly the score-9 version. -/
theorem merge_dedupe_correct_witness :
    ((merge [exArticleScore "1" 5] [exArticleScore "1" 9]).filter
      (byId "1")).length = 1 ∧
    (merge [exArticleScore "1" 5] [exArticleScore "1" 9]).filter (byId "1") =
      (([exArticleScore "1" 9].filter (byId "1")).getLast?).toList :=
  merge_dedupe_correct [exArticleScore "1" 5] [exArticleScore "1" 9] "1"
    (by decide) (by decide) (by decide)

/-- C10: records of the collection whose id is not refetched survive the
merge unchanged and in their original relative order, preceding every newly
appended record (whose ids all come from the batch). -/
theorem untouched_records_stable (c r : List Article) (hc : uniqueIds c) :
    ∃ s, merge c r = (c.filter fun a => decide (a.article_id ∉ idsOf r)) ++ s ∧
      ∀ a ∈ s, a.article_id ∈ idsOf r := by
  refine ⟨dedupLast r, merge_eq r c hc, ?_⟩
  intro a ha
  have ham : a ∈ r := (dedupLast_sublist r).subset ha
  exact (mem_idsOf _ _).mpr ⟨a, ham, rfl⟩

/-- Witness for C10: id 1 is untouched when only id 2 is refetched. -/
theorem untouched_records_stable_witness :
    ∃ s, merge [exArticle "1", exArticle "2"] [exArticle "2"] =
        ([exArticle "1", exArticle "2"].filter fun a =>
          decide (a.article_id ∉ idsOf [exArticle "2"])) ++ s ∧
      ∀ a ∈ s, a.article_id ∈ idsOf [exArticle "2"] :=
  untouched_records_stable [exArticle "1", exArticle "2"] [exArticle "2"]
    (by decide)

/-- C3: merging any batch into a collection with pairwise distinct ids
yields pairwise distinct ids again, and trimming preserves distinctness. -/
theorem uniqueness_invariant (c r : List Article) (m : Nat)
    (hc : uniqueIds c) :
    uniqueIds (merge c r) ∧ uniqueIds (trim_article_collection c m) := by
  constructor
  · rw [merge_eq r c hc]
    unfold uniqueIds
    rw [idsOf_append]
    apply List.Nodup.append
    · exact uniqueIds_filter c _ hc
    · exact nodup_idsOf_dedupLast r
    · intro y hy1 hy2
      obtain ⟨b, hb, hby⟩ := (mem_idsOf y _).mp hy1
      have hbp := (List.mem_filter.mp hb).2
      simp only [decide_eq_true_eq] at hbp
      apply hbp
      rw [hby]
      exact (mem_idsOf_dedupLast r y).mp hy2
  · rw [trim_eq_drop]
    exact hc.sublist (List.Sublist.map _ (List.drop_sublist _ _))

/-- Witness for C3 at a two-article collection, a one-record batch and
trim size 1. -/
theorem uniqueness_invariant_witness :
    uniqueIds (merge [exArticle "1", exArticle "2"] [exArticle "3"]) ∧
    uniqueIds (trim_article_collection [exArticle "1", exArticle "2"] 1) :=
  uniqueness_invariant [exArticle "1", exArticle "2"] [exArticle "3"] 1
    (by decide)

theorem merge_append_last (c : List Article) (r : List Article) (a : Article) :
    (merge c (r ++ [a])).getLast? = some a := by
  rw [merge, List.foldl_append]
  show (mergeStep _ a).getLast? = some a
  rw [mergeStep]
  exact List.getLast?_concat _

/-- C5: when the batch repeats an id, the merge processes each occurrence
independently, so exactly one record with that id remains, holding the
batch's last occurrence; and when the batch ends with that id, it is the
last element of the merged collection. -/
theorem dup_ids_last_wins (c r : List Article) (x : String)
    (hc : uniqueIds c) (h2 : 2 ≤ (r.filter (byId x)).length) :
    ((merge c r).filter (byId x)).length = 1 ∧
    (merge c r).filter (byId x) = ((r.filter (byId x)).getLast?).toList ∧
    ∀ a, r.getLast? = some a → a.article_id = x →
      (merge c r).getLast? = some a := by
  have hxr : x ∈ idsOf r := by
    have hne : r.filter (byId x) ≠ [] := by
      intro h
      rw [h] at h2
      simp at h2
    by_contra hn
    exact hne ((filter_byId_eq_nil_iff r x).mpr hn)
  refine ⟨(merge_filter_byId c r x hc hxr).2,
          (merge_filter_byId c r x hc hxr).1, ?_⟩
  intro a hlast _
  have hr : r ≠ [] := by
    intro h
    rw [h] at hlast
    exact Option.noConfusion hlast
  have ha : r.getLast hr = a := by
    have h1 := List.getLast?_eq_getLast r hr
    rw [h1] at hlast
    exact Option.some.inj hlast
  have hsplit : r.dropLast ++ [a] = r := by
    rw [← ha]
    exact List.dropLast_append_getLast hr
  rw [← hsplit]
  exact merge_append_last c r.dropLast a

/-- Witness for C5: a batch repeating id 1 with scores 5 then 9 leaves the
score-9 record as the last element. -/
theorem dup_ids_last_wins_witness :
    (merge [] [exArticleScore "1" 5, exArticleScore "1" 9]).getLast? =
      some (exArticleScore "1" 9) :=
  (dup_ids_last_wins [] [exArticleScore "1" 5, exArticleScore "1" 9] "1"
    (by decide) (by decide)).2.2 (exArticleScore "1" 9) rfl rfl

/-! ### Refetch keeps the length -/

theorem length_filter_mem_split (c r : List Article) :
    (c.filter fun a => decide (a.article_id ∉ idsOf r)).length +
      (c.filter fun a => decide (a.article_id ∈ idsOf r)).length = c.length := by
  induction c with
  | nil => rfl
  | cons a rest ih =>
    by_cases h : a.article_id ∈ idsOf r
    · rw [List.filter_cons_of_neg (by simpa using h),
          List.filter_cons_of_pos (by simpa using h)]
      simp only [List.length_cons]
      omega
    · rw [List.filter_cons_of_pos (by simpa using h),
          List.filter_cons_of_neg (by simpa using h)]
      simp only [List.length_cons]
      omega

theorem mem_idsOf_filter_mem (c r : List Article) (x : String) :
    x ∈ idsOf (c.filter fun a => decide (a.article_id ∈ idsOf r)) ↔
      x ∈ idsOf c ∧ x ∈ idsOf r := by
  rw [mem_idsOf]
  constructor
  · rintro ⟨a, ha, rfl⟩
    have h1 := List.mem_filter.mp ha
    exact ⟨(mem_idsOf _ _).mpr ⟨a, h1.1, rfl⟩, by simpa using h1.2⟩
  · rintro ⟨hxc, hxr⟩
    obtain ⟨a, ha, rfl⟩ := (mem_idsOf x c).mp hxc
    exact ⟨a, List.mem_filter.mpr ⟨ha, by simpa using hxr⟩, rfl⟩

theorem length_filter_mem_eq_dedupLast (c r : List Article)
    (hc : uniqueIds c) (hsub : ∀ x ∈ idsOf r, x ∈ idsOf c) :
    (c.filter fun a => decide (a.article_id ∈ idsOf r)).length =
      (dedupLast r).length := by
  have h1 : (c.filter fun a => decide (a.article_id ∈ idsOf r)).length =
      (idsOf (c.filter fun a => decide (a.article_id ∈ idsOf r))).length :=
    (List.length_map _ _).symm
  have h2 : (dedupLast r).length = (idsOf (dedupLast r)).length :=
    (List.length_map _ _).symm
  rw [h1, h2]
  apply List.Perm.length_eq
  rw [List.perm_ext_iff_of_nodup
    (uniqueIds_filter c _ hc) (nodup_idsOf_dedupLast r)]
  intro x
  rw [mem_idsOf_filter_mem, mem_idsOf_dedupLast]
  constructor
  · exact And.right
  · intro hx
    exact ⟨hsub x hx, hx⟩

/-- C4: refetching records that already sit in the collection, contents
unchanged, keeps the collection length; the refetched records are moved to
the end as a subsequence of the batch (relative order preserved), covering
every batch id, after the untouched records. -/
theorem merge_refetch_idempotent (c r : List Article) (hc : uniqueIds c)
    (hsub : ∀ a ∈ r, a ∈ c) :
    (merge c r).length = c.length ∧
    ∃ s, merge c r = (c.filter fun a => decide (a.article_id ∉ idsOf r)) ++ s ∧
      List.Sublist s r ∧ ∀ x ∈ idsOf r, x ∈ idsOf s := by
  have hids : ∀ x ∈ idsOf r, x ∈ idsOf c := by
    intro x hx
    obtain ⟨a, ha, rfl⟩ := (mem_idsOf x r).mp hx
    exact (mem_idsOf _ _).mpr ⟨a, hsub a ha, rfl⟩
  constructor
  · rw [merge_eq r c hc, List.length_append,
        ← length_filter_mem_eq_dedupLast c r hc hids]
    have := length_filter_mem_split c r
    omega
  · refine ⟨dedupLast r, merge_eq r c hc, dedupLast_sublist r, ?_⟩
    intro x hx
    exact (mem_idsOf_dedupLast r x).mpr hx

/-- Witness for C4: refetching both records of a two-article collection in
the opposite order keeps the length at two. -/
theorem merge_refetch_idempotent_witness :
    (merge [exArticle "1", exArticle "2"]
      [exArticle "2", exArticle "1"]).length =
      [exArticle "1", exArticle "2"].length :=
  (merge_refetch_idempotent [exArticle "1", exArticle "2"]
    [exArticle "2", exArticle "1"] (by decide) (by decide)).1

end HnSummarizer
